import Mathlib

/-!
Shallow embedding of `src/backend/scrape_539.py` (Taiwan 539 lottery scraper).

The script scrapes draw results from HTML list pages, normalizes them into
records `{date, numbers}`, merges across sources, and computes three
statistics.  Pure computation is embedded directly; the network layer
(`requests`) and the HTML-to-text step of BeautifulSoup are external
collaborators, so functions that consume their output are parameterised by
that output (the accumulated record lists, resp. the extracted text).

Python data structures are embedded as follows:
* `dict` / `collections.Counter` / `collections.defaultdict` become
  association lists that preserve Python's insertion-order semantics
  (first insertion fixes the position, later writes update in place);
* `list.sort` / `sorted` (Timsort, stable) becomes `List.mergeSort`
  (also stable);
* date strings compare exactly as in Python: lexicographically by
  code point (`String` order in Lean is the same lexicographic order
  on `.data`).
-/

/-- A draw record, Python dict `{"date": d, "numbers": nums}`
(`scrape_539.py`, e.g. line 61). -/
structure Draw where
  date : String
  numbers : List Nat
deriving DecidableEq, Repr

/-- `counter[k] += 1` on a `collections.Counter` represented as an
association list in key-insertion order: the first entry for `k` is bumped
in place, a missing key is appended at the end with count 1. -/
def bump {α : Type} [DecidableEq α] : List (α × Nat) → α → List (α × Nat)
  | [], k => [(k, 1)]
  | e :: rest, k => if e.1 = k then (e.1, e.2 + 1) :: rest else e :: bump rest k

/-- `counter[k]` (0 when absent), reading the first entry for `k`. -/
def countOf {α : Type} [DecidableEq α] : List (α × Nat) → α → Nat
  | [], _ => 0
  | e :: rest, k => if e.1 = k then e.2 else countOf rest k

/-- `Counter.most_common()` : all items sorted by count descending.
CPython's `most_common` is a stable reverse sort on the count, so ties keep
key-insertion order; `most_common(n)` is its first `n` items. -/
def mostCommon {α : Type} (c : List (α × Nat)) : List (α × Nat) :=
  c.mergeSort (fun a b => decide (b.2 ≤ a.2))

/-- `itertools.combinations(l, 2)`: ordered pairs of positions `i < j`,
in lexicographic position order. -/
def combos2 {α : Type} : List α → List (α × α)
  | [] => []
  | x :: xs => (xs.map fun y => (x, y)) ++ combos2 xs

/-- `itertools.combinations(l, 3)`: ordered triples of positions
`i < j < k`, in lexicographic position order. -/
def combos3 {α : Type} : List α → List (α × α × α)
  | [] => []
  | x :: xs => ((combos2 xs).map fun p => (x, p.1, p.2)) ++ combos3 xs

/-- The stream of trio keys tallied by `compute_top_trio`
(lines 144-146), flattened in loop order. -/
def trioOccs (draws : List Draw) : List (Nat × Nat × Nat) :=
  (draws.map (fun d => combos3 d.numbers)).flatten

/-- The counter built by lines 143-146 of `compute_top_trio`. -/
def trioCounter (draws : List Draw) : List ((Nat × Nat × Nat) × Nat) :=
  draws.foldl (fun c d => (combos3 d.numbers).foldl bump c) []

/-- `compute_top_trio` (lines 142-151): top trio, its count, and the
top-5 list; `((0,0,0), 0, [])` when the counter is empty. -/
def compute_top_trio (draws : List Draw) :
    (Nat × Nat × Nat) × Nat × List ((Nat × Nat × Nat) × Nat) :=
  match mostCommon (trioCounter draws) with
  | [] => ((0, 0, 0), 0, [])
  | top :: _ => (top.1, top.2, (mostCommon (trioCounter draws)).take 5)

/-- `tuple(sorted(p))` for a pair `p` (line 161). -/
def sortPair (p : Nat × Nat) : Nat × Nat :=
  if p.1 ≤ p.2 then p else (p.2, p.1)

/-- `set(trio).issubset(set(nums))` (line 158). -/
def trioSubset (t : Nat × Nat × Nat) (l : List Nat) : Bool :=
  l.contains t.1 && l.contains t.2.1 && l.contains t.2.2

/-- The stream of (sorted) pair keys tallied by
`compute_next_pairs_for_trio` (lines 156-161), flattened in loop order.
`enumerate(draws[:-1])` together with `draws[i+1]` is exactly
`draws.zip draws.tail`. -/
def pairOccs (draws : List Draw) (trio : Nat × Nat × Nat) : List (Nat × Nat) :=
  ((draws.zip draws.tail).map (fun pr =>
    if trioSubset trio pr.1.numbers
    then (combos2 pr.2.numbers).map sortPair
    else [])).flatten

/-- The counter built by lines 154-161 of `compute_next_pairs_for_trio`,
mirroring the nested loop structure. -/
def pairCounter (draws : List Draw) (trio : Nat × Nat × Nat) :
    List ((Nat × Nat) × Nat) :=
  (draws.zip draws.tail).foldl
    (fun c pr =>
      if trioSubset trio pr.1.numbers
      then (combos2 pr.2.numbers).foldl (fun c' p => bump c' (sortPair p)) c
      else c) []

/-- `compute_next_pairs_for_trio` (lines 153-166): best next-draw pair for
the trio, its count, and the top-5 list; `((0,0), 0, [])` when no draw
before the last contains the trio (empty counter). -/
def compute_next_pairs_for_trio (draws : List Draw) (trio : Nat × Nat × Nat) :
    (Nat × Nat) × Nat × List ((Nat × Nat) × Nat) :=
  match mostCommon (pairCounter draws trio) with
  | [] => ((0, 0), 0, [])
  | top :: _ => (top.1, top.2, (mostCommon (pairCounter draws trio)).take 5)

/-- Numeric value of a digit string (`int(x)` on the captured tokens). -/
def digitsToNat (l : List Char) : Nat :=
  l.foldl (fun n c => 10 * n + (c.toNat - 48)) 0

/-- `(datetime.fromisoformat(s).year, ...month)` (lines 175-176) for the
well-formed `"YYYY-MM-DD"` strings this program stores: the first four
characters are the year, characters five and six (after the dash) the
month.  (`fromisoformat`'s failure on malformed strings is outside the
shapes this program produces.) -/
def isoYM (s : String) : Nat × Nat :=
  (digitsToNat (s.data.take 4), digitsToNat ((s.data.drop 5).take 2))

/-- `by_month[key].append(d)` on a `defaultdict(list)`: append to the
existing group in place, or append a fresh group at the end. -/
def addToGroup : List ((Nat × Nat) × List Draw) → (Nat × Nat) → Draw →
    List ((Nat × Nat) × List Draw)
  | [], k, d => [(k, [d])]
  | e :: rest, k, d =>
    if e.1 = k then (e.1, e.2 ++ [d]) :: rest else e :: addToGroup rest k d

/-- The `by_month` grouping of lines 173-177. -/
def groupByYM (draws : List Draw) : List ((Nat × Nat) × List Draw) :=
  draws.foldl (fun acc d => addToGroup acc (isoYM d.date) d) []

/-- `sorted(arr, key=lambda x: x["date"])`'s comparison. -/
def dateLe (a b : Draw) : Bool :=
  decide (a.date ≤ b.date)

/-- The `second_numbers` list of lines 179-185: for each month group (in
key-insertion order) sort by date, and if the earliest draw has at least
two numbers take its second number (`nums[1]`), otherwise skip. -/
def secondNumbers (draws : List Draw) : List Nat :=
  ((groupByYM draws).map (fun e =>
    match e.2.mergeSort dateLe with
    | [] => []
    | a :: _ =>
      match a.numbers with
      | _ :: n2 :: _ => [n2]
      | _ => [])).flatten

/-- Result shape of `compute_monthly_first_second_counts`:
`{"counts": ..., "top2": ...}`. -/
structure MonthlyOut where
  counts : List (Nat × Nat)
  top2 : List Nat
deriving DecidableEq, Repr

/-- Python's tuple comparison on `(value, count)` items, used by
`dict(sorted(c.items()))`: value first, count as tie-break. -/
def pairKeyLe (a b : Nat × Nat) : Bool :=
  decide (a.1 < b.1 ∨ (a.1 = b.1 ∧ a.2 ≤ b.2))

/-- `compute_monthly_first_second_counts` (lines 168-188).
`dict(sorted(c.items()))` sorts the `(value, count)` items in Python's
tuple order; `top2` is `[n for n,_ in c.most_common(2)]`. -/
def compute_monthly_first_second_counts (draws : List Draw) : MonthlyOut :=
  let c := (secondNumbers draws).foldl bump []
  { counts := c.mergeSort pairKeyLe
    top2 := ((mostCommon c).take 2).map (fun e => e.1) }

/-- `tmp[d["date"]] = d` on a Python dict in insertion order (line 137):
an existing key keeps its position and gets the new value, a new key is
appended at the end. -/
def dictInsertDraw : List (String × Draw) → Draw → List (String × Draw)
  | [], d => [(d.date, d)]
  | e :: rest, d =>
    if e.1 = d.date then (e.1, d) :: rest else e :: dictInsertDraw rest d

/-- `list(tmp.values())` after inserting every accumulated draw
(lines 135-138): last write per date wins, first-insertion order. -/
def mergeByDate (all_draws : List Draw) : List Draw :=
  (all_draws.foldl dictInsertDraw []).map (fun e => e.2)

/-- The pure tail of `fetch_draws` (lines 134-140): dedup by date with
last-write-wins, then `draws.sort(key=lambda x: x["date"])` ascending.
The HTTP fetching and parser dispatch of lines 118-132 only accumulate
`all_draws` as the concatenation of per-source parser outputs; that
accumulated list is the parameter here. -/
def fetch_draws_merge (all_draws : List Draw) : List Draw :=
  (mergeByDate all_draws).mergeSort dateLe

/-- The output document assembled by `main` (lines 208-215), network and
file IO aside. -/
structure Report where
  num_draws : Nat
  top_trio : (Nat × Nat × Nat) × Nat × List ((Nat × Nat × Nat) × Nat)
  next_pair : (Nat × Nat) × Nat × List ((Nat × Nat) × Nat)
  monthly : MonthlyOut
deriving DecidableEq, Repr

/-- The decision core of `main` (lines 200-225): build the timeline from
the per-source record lists accumulated in fetch order; with zero draws
raise `SystemExit("No draws parsed...")`, otherwise compute the three
statistics and return normally. -/
def runPipeline (parts : List (List Draw)) : Except String (List Draw × Report) :=
  let draws := fetch_draws_merge parts.flatten
  match draws with
  | [] => Except.error "No draws parsed from sources. Check network or parsers."
  | _ =>
    let t := compute_top_trio draws
    Except.ok (draws,
      { num_draws := draws.length
        top_trio := t
        next_pair := compute_next_pairs_for_trio draws t.1
        monthly := compute_monthly_first_second_counts draws })

/-- The process exit code: `raise SystemExit(str)` exits with code 1
(line 202), `raise SystemExit(main())` with `main` returning 0 exits with
code 0 (lines 225-228). -/
def mainExitCode (parts : List (List Draw)) : Nat :=
  match runPipeline parts with
  | Except.error _ => 1
  | Except.ok _ => 0

/-!
### Source parsers

`_extract_draws_from_html_pilio` (lines 46-89) runs three `re.finditer`
passes over the raw HTML and `_extract_draws_from_html_lotto8`
(lines 91-111) runs the third pattern over the BeautifulSoup text
extraction of the page.  The regex engine is embedded concretely for the
three patterns in use.  All backtracking in these patterns is spurious:

* every `\s*` is followed by a character class disjoint from whitespace,
  so it is deterministic maximal munch;
* in `\d{1,2}\s*,\s*` (and `[0-3]?\d\s*,\s*`) retrying the token with one
  digit fewer leaves the continuation at a digit, where `\s*,` fails at
  once, so the token is deterministic maximal munch as well; the final
  token of a number group ends the pattern and is maximal by greediness;
* `.*?` is lazy: the continuation is tried at each successive position,
  the first success wins; without `re.S` the scan cannot cross a newline.

`re.finditer` yields non-overlapping matches left to right: after a match
scanning resumes at its end, after a failed position it advances one
character.  The driver below uses fuel `(input length)`, which is enough
because every match consumes at least one character.
-/

/-- Python's `\d` on the ASCII digits the sources use. -/
def isDig (c : Char) : Bool :=
  48 ≤ c.toNat && c.toNat ≤ 57

/-- Python's `\s` (ASCII whitespace: space, tab, newline, CR, VT, FF). -/
def pyIsSpace (c : Char) : Bool :=
  c = ' ' || c = '\t' || c = '\n' || c = '\r' || c = '\x0b' || c = '\x0c'

/-- `\s*` maximal munch, returning the consumed span and the rest. -/
def spanSpaces : List Char → List Char × List Char
  | [] => ([], [])
  | c :: rest =>
    if pyIsSpace c then
      let pr := spanSpaces rest
      (c :: pr.1, pr.2)
    else ([], c :: rest)

/-- `\d{n}` (exact repetition). -/
def takeDigits : Nat → List Char → Option (List Char × List Char)
  | 0, l => some ([], l)
  | _ + 1, [] => none
  | n + 1, c :: rest =>
    if isDig c then (takeDigits n rest).map (fun pr => (c :: pr.1, pr.2))
    else none

/-- A literal character. -/
def expectChar (c : Char) : List Char → Option (List Char)
  | [] => none
  | x :: rest => if x = c then some rest else none

/-- The separator class of `'/'` and `'-'` in the date patterns. -/
def sepSlashDash : List Char → Option (List Char)
  | [] => none
  | x :: rest => if x = '/' || x = '-' then some rest else none

/-- `\d{1,2}` as a number-group token: maximal munch of one or two
digits (see the backtracking notes above). -/
def tok12 : List Char → Option (List Char × List Char)
  | [] => none
  | [c] => if isDig c then some ([c], []) else none
  | c :: c2 :: rest =>
    if isDig c then
      if isDig c2 then some ([c, c2], rest) else some ([c], c2 :: rest)
    else none

/-- `[0-3]?\d` as a number-group token: two characters exactly when the
first is `0`-`3` and the second is a digit, else one digit. -/
def tok03d : List Char → Option (List Char × List Char)
  | [] => none
  | [c] => if isDig c then some ([c], []) else none
  | c :: c2 :: rest =>
    if 48 ≤ c.toNat && c.toNat ≤ 51 && isDig c2 then some ([c, c2], rest)
    else if isDig c then some ([c], c2 :: rest)
    else none

/-- `\s*,\s*`, returning the consumed span and the rest. -/
def sepComma (l : List Char) : Option (List Char × List Char) :=
  let s1 := spanSpaces l
  match s1.2 with
  | ',' :: rest =>
    let s2 := spanSpaces rest
    some (s1.1 ++ ',' :: s2.1, s2.2)
  | _ => none

/-- A five-number group — `(?:\d{1,2}\s*,\s*){4}\d{1,2}` resp.
`[0-3]?\d(?:\s*,\s*[0-3]?\d){4}` — with token matcher `tk`:
token, separator, token, separator, token, separator, token, separator,
token.  Returns the captured group text and the rest. -/
def group4 (tk : List Char → Option (List Char × List Char))
    (l : List Char) : Option (List Char × List Char) := do
  let (t1, r1) ← tk l
  let (s1, r2) ← sepComma r1
  let (t2, r3) ← tk r2
  let (s2, r4) ← sepComma r3
  let (t3, r5) ← tk r4
  let (s3, r6) ← sepComma r5
  let (t4, r7) ← tk r6
  let (s4, r8) ← sepComma r7
  let (t5, r9) ← tk r8
  some (t1 ++ s1 ++ t2 ++ s2 ++ t3 ++ s3 ++ t4 ++ s4 ++ t5, r9)

/-- `.*?(group)` with `re.S` (pattern 1, line 54): try the number group
at each position, any character (newline included) may be skipped. -/
def lazyFindS : List Char → Option (List Char × List Char)
  | [] => none
  | c :: rest =>
    match group4 tok03d (c :: rest) with
    | some r => some r
    | none => lazyFindS rest

/-- `.*?\([一-龥]\)\s*(group)` without `re.S` (pattern 2,
line 64): at each position try the parenthesised CJK weekday marker
followed by the number group; a newline stops the scan. -/
def lazyFindWd : List Char → Option (List Char × List Char)
  | [] => none
  | c :: rest =>
    match
      (match c :: rest with
       | '(' :: w :: ')' :: r2 =>
         if 0x4e00 ≤ w.toNat && w.toNat ≤ 0x9fa5 then
           group4 tok03d (spanSpaces r2).2
         else none
       | _ => none) with
    | some r => some r
    | none => if c = '\n' then none else lazyFindWd rest

/-- `.*?(group)` without `re.S` (pattern 3, line 73, and the lotto8
pattern, line 96): try the number group at each position, a newline stops
the scan. -/
def lazyFind : List Char → Option (List Char × List Char)
  | [] => none
  | c :: rest =>
    match group4 tok12 (c :: rest) with
    | some r => some r
    | none => if c = '\n' then none else lazyFind rest

/-- A regex match: the captured year, month, day and number-group texts. -/
structure PMatch where
  y : List Char
  mo : List Char
  d : List Char
  nums : List Char
deriving DecidableEq, Repr

/-- Pattern 1 (line 54) anchored at the current position:
`開獎日期[:：]\s*(\d{4})/(\d{2})/(\d{2}).*?([0-3]?\d(?:\s*,\s*[0-3]?\d){4})`
with `re.S`. -/
def match1At (l : List Char) : Option (PMatch × List Char) :=
  match l with
  | '開' :: '獎' :: '日' :: '期' :: c :: rest =>
    if c = ':' || c = '：' then do
      let (y, r1) ← takeDigits 4 (spanSpaces rest).2
      let r2 ← expectChar '/' r1
      let (mo, r3) ← takeDigits 2 r2
      let r4 ← expectChar '/' r3
      let (dd, r5) ← takeDigits 2 r4
      let (g, r6) ← lazyFindS r5
      some (⟨y, mo, dd, g⟩, r6)
    else none
  | _ => none

/-- Pattern 2 (line 64) anchored at the current position:
`(\d{4})/(\d{2})/(\d{2}).*?\([一-龥]\)\s*([0-3]?\d(?:\s*,\s*[0-3]?\d){4})`. -/
def match2At (l : List Char) : Option (PMatch × List Char) := do
  let (y, r1) ← takeDigits 4 l
  let r2 ← expectChar '/' r1
  let (mo, r3) ← takeDigits 2 r2
  let r4 ← expectChar '/' r3
  let (dd, r5) ← takeDigits 2 r4
  let (g, r6) ← lazyFindWd r5
  some (⟨y, mo, dd, g⟩, r6)

/-- Pattern 3 (line 73) and the lotto8 pattern (line 96) anchored at the
current position: year, optional spaces, a slash-or-dash separator, month,
optional spaces, a slash-or-dash separator, day, then a lazy scan to the
five-number group `(?:\d{1,2}\s*,\s*){4}\d{1,2}`. -/
def match3At (l : List Char) : Option (PMatch × List Char) := do
  let (y, r1) ← takeDigits 4 l
  let r2 ← sepSlashDash (spanSpaces r1).2
  let (mo, r3) ← takeDigits 2 r2
  let r4 ← sepSlashDash (spanSpaces r3).2
  let (dd, r5) ← takeDigits 2 r4
  let (g, r6) ← lazyFind r5
  some (⟨y, mo, dd, g⟩, r6)

/-- `re.finditer`: leftmost non-overlapping matches; resume after a match,
advance one character after a failed position.  `fuel` starts at the input
length, which suffices since every match consumes at least one character. -/
def finditerAux (mAt : List Char → Option (PMatch × List Char)) :
    Nat → List Char → List PMatch
  | 0, _ => []
  | _, [] => []
  | fuel + 1, c :: rest =>
    match mAt (c :: rest) with
    | some (m, r) => m :: finditerAux mAt fuel r
    | none => finditerAux mAt fuel rest

/-- All matches of a pattern over the input. -/
def finditer (mAt : List Char → Option (PMatch × List Char))
    (l : List Char) : List PMatch :=
  finditerAux mAt l.length l

/-- `re.findall(r"\d{1,2}", s)` (lines 57, 66, 75, 98): scan left to
right, at a digit take greedily up to two digits and continue after the
token. -/
def findall12 : List Char → List (List Char)
  | [] => []
  | c :: rest =>
    if isDig c then
      match rest with
      | [] => [[c]]
      | c2 :: rest2 =>
        if isDig c2 then [c, c2] :: findall12 rest2
        else [c] :: findall12 (c2 :: rest2)
    else findall12 rest

/-- The per-match record construction shared by all passes
(e.g. lines 55-61): tokenize the captured number group, convert to
integers, sort ascending, build `f"{y}-{mm}-{dd}"`, and accept only if
exactly 5 numbers were found. -/
def mkDraw (m : PMatch) : Option Draw :=
  let nums := ((findall12 m.nums).map digitsToNat).mergeSort (fun a b => decide (a ≤ b))
  if nums.length = 5 then
    some { date := ⟨m.y ++ '-' :: m.mo ++ '-' :: m.d⟩, numbers := nums }
  else none

/-- The `seen`-set dedup loop of lines 82-89 / 104-111: keep the first
occurrence of each `(date, tuple(numbers))` key. -/
def dedupAux : List Draw → List Draw → List Draw
  | [], _ => []
  | d :: rest, seen =>
    if d ∈ seen then dedupAux rest seen else d :: dedupAux rest (d :: seen)

/-- Dedup by `(date, numbers)`. -/
def dedupDraws (l : List Draw) : List Draw :=
  dedupAux l []

/-- The concatenated matches of the three pilio passes, in pass order
(records are appended pattern by pattern, lines 54-79). -/
def pilioMatches (html : String) : List PMatch :=
  finditer match1At html.data ++ finditer match2At html.data ++
    finditer match3At html.data

/-- `_extract_draws_from_html_pilio` (lines 46-89). -/
def _extract_draws_from_html_pilio (html : String) : List Draw :=
  dedupDraws ((pilioMatches html).filterMap mkDraw)

/-- `_extract_draws_from_html_lotto8` (lines 91-111) after BeautifulSoup's
`soup.get_text(" ", strip=True)`: the text extraction is an external
library collaborator, so this function is parameterised by its output
`text`; the single pattern is the same as pilio pattern 3. -/
def _extract_draws_from_html_lotto8_text (text : String) : List Draw :=
  dedupDraws ((finditer match3At text.data).filterMap mkDraw)

/-!
### Lookup helpers and the spec-side reference for the monthly analysis

The association-list reads below (first matching key) are the access
discipline of the Python dicts embedded above.
-/

/-- First-match read of a string-keyed dict. -/
def lookupD : List (String × Draw) → String → Option Draw
  | [], _ => none
  | e :: rest, k => if e.1 = k then some e.2 else lookupD rest k

/-- First-match read of the month grouping. -/
def groupLookup : List ((Nat × Nat) × List Draw) → (Nat × Nat) → Option (List Draw)
  | [], _ => none
  | e :: rest, k => if e.1 = k then some e.2 else groupLookup rest k

/-- The last record carrying date `dt` in an accumulated record list. -/
def lastWithDate (l : List Draw) (dt : String) : Option Draw :=
  (l.filter (fun d => decide (d.date = dt))).getLast?

/-- The `(year, month)` keys of a record list in order of first
appearance. -/
def monthsFirstSeen (draws : List Draw) : List (Nat × Nat) :=
  draws.foldl (fun acc d => if isoYM d.date ∈ acc then acc else acc ++ [isoYM d.date]) []

/-- Modelled from the spec (refinement reference for the monthly
second-number analysis): "group all draws by (calendar year, calendar
month) of their date; within each group select the chronologically
earliest draw; take the second element of that draw's number sequence as
stored".  On a timeline (dates strictly ascending) the chronologically
earliest draw of a month group is the first one appearing in the list, so
each month contributes the second number of the head of its filter;
a group whose earliest draw has fewer than two numbers contributes
nothing. -/
def specMonthSeconds (draws : List Draw) : List Nat :=
  (monthsFirstSeen draws).filterMap (fun ym =>
    match draws.filter (fun d => decide (isoYM d.date = ym)) with
    | [] => none
    | a :: _ => a.numbers.get? 1)

/-!
### Counter lemmas
-/

theorem countOf_bump {α : Type} [DecidableEq α] (c : List (α × Nat)) (k k' : α) :
    countOf (bump c k) k' = countOf c k' + if k' = k then 1 else 0 := by
  induction c with
  | nil =>
    by_cases h : k' = k
    · subst h
      simp [bump, countOf]
    · have h2 : ¬ (k = k') := fun hh => h hh.symm
      simp [bump, countOf, h, h2]
  | cons e rest ih =>
    by_cases he : e.1 = k
    · simp only [bump, if_pos he, countOf]
      by_cases h' : e.1 = k'
      · have hk : k' = k := by rw [← h', he]
        simp [h', hk]
      · have hk : ¬ k' = k := by
          rw [← he]
          exact fun hh => h' hh.symm
        simp [h', hk]
    · simp only [bump, if_neg he, countOf]
      by_cases h' : e.1 = k'
      · have hk : ¬ k' = k := by
          intro hh
          rw [← hh] at he
          exact he h'
        simp [h', hk]
      · simp [h', ih]

theorem countOf_foldl_bump {α : Type} [DecidableEq α] [BEq α] [LawfulBEq α]
    (l : List α) (c : List (α × Nat)) (k : α) :
    countOf (l.foldl bump c) k = countOf c k + l.count k := by
  induction l generalizing c with
  | nil => simp
  | cons x xs ih =>
    rw [List.foldl_cons, ih, countOf_bump, List.count_cons]
    simp only [beq_iff_eq]
    by_cases h : k = x
    · simp [h]
      omega
    · simp [h, Ne.symm h]

theorem keys_bump {α : Type} [DecidableEq α] (c : List (α × Nat)) (k : α) :
    (bump c k).map Prod.fst =
      if k ∈ c.map Prod.fst then c.map Prod.fst else c.map Prod.fst ++ [k] := by
  induction c with
  | nil => simp [bump]
  | cons e rest ih =>
    by_cases he : e.1 = k
    · simp [bump, he]
    · simp only [bump, if_neg he, List.map_cons, ih]
      have h2 : ¬ k = e.1 := fun h => he h.symm
      by_cases hk : k ∈ rest.map Prod.fst <;> simp [h2, hk]

theorem keys_nodup_foldl_bump {α : Type} [DecidableEq α] (l : List α) (c : List (α × Nat))
    (h : (c.map Prod.fst).Nodup) : ((l.foldl bump c).map Prod.fst).Nodup := by
  induction l generalizing c with
  | nil => exact h
  | cons x xs ih =>
    rw [List.foldl_cons]
    apply ih
    rw [keys_bump]
    by_cases hk : x ∈ c.map Prod.fst
    · simpa [hk] using h
    · simp only [if_neg hk]
      simpa [List.nodup_append, hk] using h

theorem mem_of_countOf_pos {α : Type} [DecidableEq α] (c : List (α × Nat)) (k : α)
    (h : 0 < countOf c k) : (k, countOf c k) ∈ c := by
  induction c with
  | nil => simp [countOf] at h
  | cons e rest ih =>
    by_cases he : e.1 = k
    · simp only [countOf, if_pos he]
      have h2 : e = (k, e.2) := by
        rw [← he]
      rw [← h2]
      exact List.mem_cons_self e rest
    · simp only [countOf, if_neg he] at h ⊢
      exact List.mem_cons_of_mem e (ih h)

theorem countOf_entry {α : Type} [DecidableEq α] (c : List (α × Nat)) (e : α × Nat)
    (hn : (c.map Prod.fst).Nodup) (he : e ∈ c) : countOf c e.1 = e.2 := by
  induction c with
  | nil => simp at he
  | cons f rest ih =>
    rw [List.mem_cons] at he
    simp only [List.map_cons, List.nodup_cons] at hn
    rcases he with he | he
    · simp [countOf, he]
    · have hf : f.1 ≠ e.1 := by
        intro h
        exact hn.1 (h ▸ List.mem_map_of_mem Prod.fst he)
      simp only [countOf, if_neg hf]
      exact ih hn.2 he

theorem pos_of_mem_bump {α : Type} [DecidableEq α] (c : List (α × Nat)) (x : α)
    (hc : ∀ e ∈ c, 0 < e.2) : ∀ e ∈ bump c x, 0 < e.2 := by
  induction c with
  | nil =>
    intro e he
    simp [bump] at he
    simp [he]
  | cons f rest ih =>
    by_cases hf : f.1 = x
    · simp only [bump, if_pos hf]
      intro e he
      rw [List.mem_cons] at he
      rcases he with he | he
      · simp [he]
      · exact hc e (List.mem_cons_of_mem f he)
    · simp only [bump, if_neg hf]
      intro e he
      rw [List.mem_cons] at he
      rcases he with he | he
      · exact he ▸ hc f (List.mem_cons_self f rest)
      · exact ih (fun e' h' => hc e' (List.mem_cons_of_mem f h')) e he

theorem pos_of_mem_foldl_bump {α : Type} [DecidableEq α] (l : List α) (c : List (α × Nat))
    (hc : ∀ e ∈ c, 0 < e.2) : ∀ e ∈ l.foldl bump c, 0 < e.2 := by
  induction l generalizing c with
  | nil => exact hc
  | cons x xs ih =>
    rw [List.foldl_cons]
    exact ih (bump c x) (pos_of_mem_bump c x hc)

theorem countOf_eq_zero_of_not_mem {α : Type} [DecidableEq α] (c : List (α × Nat)) (k : α)
    (h : k ∉ c.map Prod.fst) : countOf c k = 0 := by
  induction c with
  | nil => rfl
  | cons e rest ih =>
    simp only [List.map_cons, List.mem_cons] at h
    push_neg at h
    have h2 : e.1 ≠ k := fun hk => h.1 hk.symm
    simp only [countOf, if_neg h2]
    exact ih h.2

theorem foldl_bump_ne_nil {α : Type} [DecidableEq α] (x : α) (xs : List α) (c : List (α × Nat)) :
    (x :: xs).foldl bump c ≠ [] := by
  induction xs generalizing x c with
  | nil =>
    simp only [List.foldl_cons, List.foldl_nil]
    cases c with
    | nil => simp [bump]
    | cons e rest =>
      by_cases h : e.1 = x <;> simp [bump, h]
  | cons y ys ih =>
    rw [List.foldl_cons]
    exact ih y (bump c x)

/-!
### `mostCommon` lemmas
-/

theorem mostCommon_perm {α : Type} (c : List (α × Nat)) : List.Perm (mostCommon c) c :=
  List.mergeSort_perm c _

theorem mostCommon_pairwise {α : Type} (c : List (α × Nat)) :
    (mostCommon c).Pairwise (fun a b => b.2 ≤ a.2) := by
  have h := @List.sorted_mergeSort (α × Nat) (fun a b => decide (b.2 ≤ a.2))
    (by
      intro a b c h1 h2
      simp only [decide_eq_true_iff] at h1 h2 ⊢
      omega)
    (by
      intro a b
      rcases Nat.le_total b.2 a.2 with h | h <;> simp [h])
    c
  exact h.imp (by simp)

theorem mostCommon_head_max {α : Type} (c : List (α × Nat)) (top : α × Nat)
    (rest : List (α × Nat)) (h : mostCommon c = top :: rest) :
    ∀ e ∈ c, e.2 ≤ top.2 := by
  intro e he
  have hmem : e ∈ mostCommon c := (mostCommon_perm c).symm.subset he
  rw [h, List.mem_cons] at hmem
  rcases hmem with hmem | hmem
  · simp [hmem]
  · have hp := mostCommon_pairwise c
    rw [h] at hp
    exact (List.pairwise_cons.mp hp).1 e hmem

theorem pairwise_take_drop {α : Type} {R : α → α → Prop} {s : List α} (h : s.Pairwise R)
    (n : Nat) : ∀ e ∈ s.take n, ∀ f ∈ s.drop n, R e f := by
  intro e he f hf
  rw [← List.take_append_drop n s] at h
  exact (List.pairwise_append.mp h).2.2 e he f hf

/-!
### Counters built from an occurrence stream
-/

theorem counter_count {α : Type} [DecidableEq α] [BEq α] [LawfulBEq α]
    (occs : List α) (k : α) :
    countOf (occs.foldl bump []) k = occs.count k := by
  have h := countOf_foldl_bump occs [] k
  simpa [countOf] using h

theorem counter_keys_nodup {α : Type} [DecidableEq α] (occs : List α) :
    ((occs.foldl bump []).map Prod.fst).Nodup :=
  keys_nodup_foldl_bump occs [] (by simp)

theorem counter_entry_count {α : Type} [DecidableEq α] [BEq α] [LawfulBEq α]
    (occs : List α) (e : α × Nat)
    (he : e ∈ occs.foldl bump []) : e.2 = occs.count e.1 := by
  rw [← counter_count occs e.1]
  exact (countOf_entry _ _ (counter_keys_nodup occs) he).symm

theorem counter_mem_of_count_pos {α : Type} [DecidableEq α] [BEq α] [LawfulBEq α]
    (occs : List α) (k : α)
    (h : 0 < occs.count k) : (k, occs.count k) ∈ occs.foldl bump [] := by
  have h2 : 0 < countOf (occs.foldl bump []) k := by rwa [counter_count]
  have := mem_of_countOf_pos _ _ h2
  rwa [counter_count] at this

/-- What `most_common` guarantees for a counter built from an occurrence
stream: the head is a maximal-count key with its true tally, and the first
`n` items all carry true tallies, are sorted by count descending, and
dominate the tally of every key outside them. -/
theorem mostCommon_counter_spec {α : Type} [DecidableEq α] [BEq α] [LawfulBEq α]
    (occs : List α)
    (top : α × Nat) (rest : List (α × Nat)) (n : Nat)
    (h : mostCommon (occs.foldl bump []) = top :: rest) :
    top.2 = occs.count top.1 ∧
    (∀ k, occs.count k ≤ top.2) ∧
    (∀ e ∈ (top :: rest).take n, e.2 = occs.count e.1) ∧
    ((top :: rest).take n).Pairwise (fun a b => b.2 ≤ a.2) ∧
    ((top :: rest).take n).length = min n ((occs.foldl bump []).length) ∧
    (∀ k, k ∉ ((top :: rest).take n).map Prod.fst →
      ∀ e ∈ (top :: rest).take n, occs.count k ≤ e.2) := by
  have hperm := mostCommon_perm (occs.foldl bump [])
  rw [h] at hperm
  have htop : top ∈ occs.foldl bump [] :=
    hperm.subset (List.mem_cons_self top rest)
  refine ⟨counter_entry_count occs top htop, ?_, ?_, ?_, ?_, ?_⟩
  · intro k
    rcases Nat.eq_zero_or_pos (occs.count k) with hk | hk
    · omega
    · have hmem := counter_mem_of_count_pos occs k hk
      have := mostCommon_head_max _ top rest h _ hmem
      simpa using this
  · intro e he
    have : e ∈ occs.foldl bump [] :=
      hperm.subset (List.mem_of_mem_take he)
    exact counter_entry_count occs e this
  · exact List.Pairwise.sublist (List.take_sublist n _) (h ▸ mostCommon_pairwise _)
  · rw [List.length_take, ← h, (mostCommon_perm _).length_eq]
  · intro k hk e he
    rcases Nat.eq_zero_or_pos (occs.count k) with h0 | h0
    · omega
    · have hmem := counter_mem_of_count_pos occs k h0
      have hmem2 : (k, occs.count k) ∈ top :: rest := hperm.symm.subset hmem
      rw [← List.take_append_drop n (top :: rest), List.mem_append] at hmem2
      rcases hmem2 with hmem2 | hmem2
      · exact absurd (List.mem_map_of_mem Prod.fst hmem2) hk
      · have hp := h ▸ mostCommon_pairwise (occs.foldl bump [])
        have := pairwise_take_drop hp n e he (k, occs.count k) hmem2
        simpa using this

/-!
### `itertools.combinations` membership characterizations
-/

theorem mem_combos2 {α : Type} (l : List α) (p : α × α) :
    p ∈ combos2 l ↔ List.Sublist [p.1, p.2] l := by
  induction l with
  | nil => simp [combos2]
  | cons x xs ih =>
    simp only [combos2, List.mem_append, List.mem_map]
    constructor
    · rintro (⟨y, hy, rfl⟩ | hp)
      · exact List.cons_sublist_cons.mpr (List.singleton_sublist.mpr hy)
      · exact (ih.mp hp).cons x
    · intro h
      rcases List.sublist_cons_iff.mp h with h | ⟨r, hr, hsub⟩
      · exact Or.inr (ih.mpr h)
      · injection hr with h1 h2
        subst h2
        refine Or.inl ⟨p.2, List.singleton_sublist.mp hsub, ?_⟩
        rw [← h1]

theorem mem_combos3 {α : Type} (l : List α) (t : α × α × α) :
    t ∈ combos3 l ↔ List.Sublist [t.1, t.2.1, t.2.2] l := by
  induction l with
  | nil => simp [combos3]
  | cons x xs ih =>
    simp only [combos3, List.mem_append, List.mem_map]
    constructor
    · rintro (⟨p, hp, rfl⟩ | ht)
      · exact List.cons_sublist_cons.mpr ((mem_combos2 xs p).mp hp)
      · exact (ih.mp ht).cons x
    · intro h
      rcases List.sublist_cons_iff.mp h with h | ⟨r, hr, hsub⟩
      · exact Or.inr (ih.mpr h)
      · injection hr with h1 h2
        subst h2
        refine Or.inl ⟨(t.2.1, t.2.2), (mem_combos2 xs _).mpr hsub, ?_⟩
        rw [← h1]

/-!
### The two statistics counters as occurrence-stream counters
-/

theorem trioCounter_eq (draws : List Draw) :
    trioCounter draws = (trioOccs draws).foldl bump [] := by
  rw [trioCounter, trioOccs, List.foldl_flatten, List.foldl_map]

theorem pairCounter_eq (draws : List Draw) (trio : Nat × Nat × Nat) :
    pairCounter draws trio = (pairOccs draws trio).foldl bump [] := by
  rw [pairCounter, pairOccs, List.foldl_flatten, List.foldl_map]
  apply List.foldl_ext
  intro c pr _
  by_cases hs : trioSubset trio pr.1.numbers
  · simp only [hs, if_pos, List.foldl_map]
  · simp [hs]

/-!
### Claim C2 — top-trio analysis
-/

unseal List.merge List.mergeSort in
/-- **C2**: `compute_top_trio` tallies every unordered 3-combination of
each draw's numbers across all draws (a triple is tallied iff it is a
sublist of the draw's numbers, with the true multiplicity) and returns a
highest-count combination with its count and a top-5 ranked list; on the
timeline `[[1,2,3,4,5],[1,2,3,6,7]]` the trio `(1,2,3)` with count 2 is
the top result, and the empty timeline yields `((0,0,0), 0, [])` rather
than an error. -/
theorem claim_C2_top_trio :
    compute_top_trio [] = ((0, 0, 0), 0, []) ∧
    (compute_top_trio [⟨"2024-01-01", [1,2,3,4,5]⟩, ⟨"2024-01-02", [1,2,3,6,7]⟩]).1 = (1, 2, 3) ∧
    (compute_top_trio [⟨"2024-01-01", [1,2,3,4,5]⟩, ⟨"2024-01-02", [1,2,3,6,7]⟩]).2.1 = 2 ∧
    (∀ (l : List Nat) (t : Nat × Nat × Nat), t ∈ combos3 l ↔ List.Sublist [t.1, t.2.1, t.2.2] l) ∧
    ∀ draws : List Draw,
      (trioOccs draws = [] → compute_top_trio draws = ((0, 0, 0), 0, [])) ∧
      (trioOccs draws ≠ [] →
        (compute_top_trio draws).2.1 = (trioOccs draws).count (compute_top_trio draws).1 ∧
        (∀ t, (trioOccs draws).count t ≤ (compute_top_trio draws).2.1) ∧
        (compute_top_trio draws).2.2.head? =
          some ((compute_top_trio draws).1, (compute_top_trio draws).2.1) ∧
        (∀ e ∈ (compute_top_trio draws).2.2, e.2 = (trioOccs draws).count e.1) ∧
        (compute_top_trio draws).2.2.Pairwise (fun a b => b.2 ≤ a.2) ∧
        (compute_top_trio draws).2.2.length = min 5 (trioCounter draws).length ∧
        (∀ t, t ∉ (compute_top_trio draws).2.2.map Prod.fst →
          ∀ e ∈ (compute_top_trio draws).2.2, (trioOccs draws).count t ≤ e.2)) := by
  refine ⟨by decide, by decide, by decide, mem_combos3, ?_⟩
  intro draws
  constructor
  · intro h
    have hc : trioCounter draws = [] := by
      rw [trioCounter_eq, h]
      rfl
    simp [compute_top_trio, hc, mostCommon]
  · intro h
    have hc : trioCounter draws ≠ [] := by
      rw [trioCounter_eq]
      obtain ⟨x, xs, hxs⟩ : ∃ x xs, trioOccs draws = x :: xs := by
        cases hocc : trioOccs draws with
        | nil => exact absurd hocc h
        | cons x xs => exact ⟨x, xs, rfl⟩
      rw [hxs]
      exact foldl_bump_ne_nil x xs []
    cases hm : mostCommon (trioCounter draws) with
    | nil =>
      exfalso
      have hp := mostCommon_perm (trioCounter draws)
      rw [hm] at hp
      exact hc (List.eq_nil_of_length_eq_zero hp.length_eq.symm)
    | cons top rest =>
      have hmm : mostCommon ((trioOccs draws).foldl bump []) = top :: rest := by
        rw [← trioCounter_eq]
        exact hm
      obtain ⟨h1, h2, h3, h4, h5, h6⟩ := mostCommon_counter_spec (trioOccs draws) top rest 5 hmm
      have hct : compute_top_trio draws = (top.1, top.2, (top :: rest).take 5) := by
        simp [compute_top_trio, hm]
      rw [hct]
      refine ⟨by simpa using h1, by simpa using h2, by simp, ?_, by simpa using h4, ?_, ?_⟩
      · intro e he
        exact h3 e (by simpa using he)
      · rw [trioCounter_eq]
        simpa using h5
      · intro t ht e he
        exact h6 t (by simpa using ht) e (by simpa using he)

unseal List.merge List.mergeSort in
/-- Witness for C2: the general clauses applied to the concrete timeline
`[[1,2,3,4,5],[1,2,3,6,7]]` and the empty timeline, with every hypothesis
discharged by evaluation. -/
theorem claim_C2_top_trio_witness :
    trioOccs [⟨"2024-01-01", [1,2,3,4,5]⟩, ⟨"2024-01-02", [1,2,3,6,7]⟩] ≠ [] ∧
    (compute_top_trio [⟨"2024-01-01", [1,2,3,4,5]⟩, ⟨"2024-01-02", [1,2,3,6,7]⟩]).2.1 =
      (trioOccs [⟨"2024-01-01", [1,2,3,4,5]⟩, ⟨"2024-01-02", [1,2,3,6,7]⟩]).count
        (compute_top_trio [⟨"2024-01-01", [1,2,3,4,5]⟩, ⟨"2024-01-02", [1,2,3,6,7]⟩]).1 ∧
    compute_top_trio [] = ((0, 0, 0), 0, []) :=
  ⟨by decide,
   ((claim_C2_top_trio.2.2.2.2 [⟨"2024-01-01", [1,2,3,4,5]⟩, ⟨"2024-01-02", [1,2,3,6,7]⟩]).2
     (by decide)).1,
   (claim_C2_top_trio.2.2.2.2 []).1 (by decide)⟩

/-!
### Claim C1 — conditional-pair analysis
-/

unseal List.merge List.mergeSort in
/-- **C1**: `compute_next_pairs_for_trio` scans consecutive draw pairs
`(draw i, draw i+1)` for `i` up to the second-to-last draw; whenever
draw `i` contains the trio it tallies every unordered 2-combination of
draw `i+1` (pairs are stored sorted, and a pair is tallied iff it is drawn
from the successor's numbers, with the true multiplicity); it returns a
highest-count pair with its count and a top-5 list.  The last draw never
triggers (a one-draw timeline always yields the sentinel), and if no draw
before the last contains the trio the result is `((0,0), 0, [])`. -/
theorem claim_C1_next_pairs :
    (∀ (d : Draw) (trio : Nat × Nat × Nat),
      compute_next_pairs_for_trio [d] trio = ((0, 0), 0, [])) ∧
    (∀ (l : List Nat) (p : Nat × Nat), p ∈ combos2 l ↔ List.Sublist [p.1, p.2] l) ∧
    ∀ (draws : List Draw) (trio : Nat × Nat × Nat),
      (pairOccs draws trio = [] → compute_next_pairs_for_trio draws trio = ((0, 0), 0, [])) ∧
      ((∀ (i : Fin draws.length), ↑i + 1 < draws.length →
          trioSubset trio (draws.get i).numbers = false) →
        compute_next_pairs_for_trio draws trio = ((0, 0), 0, [])) ∧
      (∀ p ∈ pairOccs draws trio, p.1 ≤ p.2) ∧
      (pairOccs draws trio ≠ [] →
        (compute_next_pairs_for_trio draws trio).2.1 =
          (pairOccs draws trio).count (compute_next_pairs_for_trio draws trio).1 ∧
        (∀ p, (pairOccs draws trio).count p ≤ (compute_next_pairs_for_trio draws trio).2.1) ∧
        (compute_next_pairs_for_trio draws trio).2.2.head? =
          some ((compute_next_pairs_for_trio draws trio).1,
            (compute_next_pairs_for_trio draws trio).2.1) ∧
        (∀ e ∈ (compute_next_pairs_for_trio draws trio).2.2,
          e.2 = (pairOccs draws trio).count e.1) ∧
        (compute_next_pairs_for_trio draws trio).2.2.Pairwise (fun a b => b.2 ≤ a.2) ∧
        (compute_next_pairs_for_trio draws trio).2.2.length =
          min 5 (pairCounter draws trio).length ∧
        (∀ p, p ∉ (compute_next_pairs_for_trio draws trio).2.2.map Prod.fst →
          ∀ e ∈ (compute_next_pairs_for_trio draws trio).2.2,
            (pairOccs draws trio).count p ≤ e.2)) := by
  refine ⟨?_, mem_combos2, ?_⟩
  · intro d trio
    simp [compute_next_pairs_for_trio, pairCounter, mostCommon]
  · intro draws trio
    have hsent : pairOccs draws trio = [] →
        compute_next_pairs_for_trio draws trio = ((0, 0), 0, []) := by
      intro h
      have hc : pairCounter draws trio = [] := by
        rw [pairCounter_eq, h]
        rfl
      simp [compute_next_pairs_for_trio, hc, mostCommon]
    refine ⟨hsent, ?_, ?_, ?_⟩
    · intro h
      apply hsent
      rw [pairOccs, List.flatten_eq_nil_iff]
      intro l hl
      rw [List.mem_map] at hl
      obtain ⟨pr, hpr, rfl⟩ := hl
      obtain ⟨i, hi, hget⟩ := List.mem_iff_getElem.mp hpr
      have hlen : i < draws.length ∧ i + 1 < draws.length := by
        rw [List.length_zip, List.length_tail] at hi
        omega
      have hz : pr.1 = draws.get ⟨i, hlen.1⟩ := by
        rw [← hget]
        simp [List.get_eq_getElem]
      have hfalse := h ⟨i, hlen.1⟩ hlen.2
      rw [hz, hfalse]
      simp
    · intro p hp
      rw [pairOccs, List.mem_flatten] at hp
      obtain ⟨l, hl, hpl⟩ := hp
      rw [List.mem_map] at hl
      obtain ⟨pr, _, rfl⟩ := hl
      by_cases hs : trioSubset trio pr.1.numbers
      · rw [if_pos hs, List.mem_map] at hpl
        obtain ⟨q, _, rfl⟩ := hpl
        rw [sortPair]
        by_cases hq : q.1 ≤ q.2
        · simp [hq]
        · simp only [if_neg hq]
          omega
      · rw [if_neg hs] at hpl
        simp at hpl
    · intro h
      have hc : pairCounter draws trio ≠ [] := by
        rw [pairCounter_eq]
        obtain ⟨x, xs, hxs⟩ : ∃ x xs, pairOccs draws trio = x :: xs := by
          cases hocc : pairOccs draws trio with
          | nil => exact absurd hocc h
          | cons x xs => exact ⟨x, xs, rfl⟩
        rw [hxs]
        exact foldl_bump_ne_nil x xs []
      cases hm : mostCommon (pairCounter draws trio) with
      | nil =>
        exfalso
        have hp := mostCommon_perm (pairCounter draws trio)
        rw [hm] at hp
        exact hc (List.eq_nil_of_length_eq_zero hp.length_eq.symm)
      | cons top rest =>
        have hmm : mostCommon ((pairOccs draws trio).foldl bump []) = top :: rest := by
          rw [← pairCounter_eq]
          exact hm
        obtain ⟨h1, h2, h3, h4, h5, h6⟩ :=
          mostCommon_counter_spec (pairOccs draws trio) top rest 5 hmm
        have hct : compute_next_pairs_for_trio draws trio =
            (top.1, top.2, (top :: rest).take 5) := by
          simp [compute_next_pairs_for_trio, hm]
        rw [hct]
        refine ⟨by simpa using h1, by simpa using h2, by simp, ?_, by simpa using h4, ?_, ?_⟩
        · intro e he
          exact h3 e (by simpa using he)
        · rw [pairCounter_eq]
          simpa using h5
        · intro p hp e he
          exact h6 p (by simpa using hp) e (by simpa using he)

unseal List.merge List.mergeSort in
/-- Witness for C1: the clauses applied to concrete timelines — a
triggering first draw followed by a successor, a timeline whose only
trio-containing draw is the last (sentinel), and a one-draw timeline —
with every hypothesis discharged by evaluation. -/
theorem claim_C1_next_pairs_witness :
    pairOccs [⟨"2024-01-01", [1,2,3,4,5]⟩, ⟨"2024-01-02", [6,7,8,9,10]⟩] (1, 2, 3) ≠ [] ∧
    (compute_next_pairs_for_trio
        [⟨"2024-01-01", [1,2,3,4,5]⟩, ⟨"2024-01-02", [6,7,8,9,10]⟩] (1, 2, 3)).2.1 =
      (pairOccs [⟨"2024-01-01", [1,2,3,4,5]⟩, ⟨"2024-01-02", [6,7,8,9,10]⟩] (1, 2, 3)).count
        (compute_next_pairs_for_trio
          [⟨"2024-01-01", [1,2,3,4,5]⟩, ⟨"2024-01-02", [6,7,8,9,10]⟩] (1, 2, 3)).1 ∧
    compute_next_pairs_for_trio
      [⟨"2024-01-01", [4,5,6,7,8]⟩, ⟨"2024-01-02", [1,2,3,9,10]⟩] (1, 2, 3) = ((0, 0), 0, []) :=
  ⟨by decide,
   (((claim_C1_next_pairs.2.2
       [⟨"2024-01-01", [1,2,3,4,5]⟩, ⟨"2024-01-02", [6,7,8,9,10]⟩] (1, 2, 3)).2.2.2)
     (by decide)).1,
   ((claim_C1_next_pairs.2.2
       [⟨"2024-01-01", [4,5,6,7,8]⟩, ⟨"2024-01-02", [1,2,3,9,10]⟩] (1, 2, 3)).2.1)
     (by decide)⟩

/-!
### Dict-merge lemmas (collector)
-/

theorem lookupD_dictInsert (m : List (String × Draw)) (d : Draw) (dt : String) :
    lookupD (dictInsertDraw m d) dt = if dt = d.date then some d else lookupD m dt := by
  induction m with
  | nil =>
    by_cases h : dt = d.date
    · simp [dictInsertDraw, lookupD, h]
    · have h2 : ¬ d.date = dt := fun hh => h hh.symm
      simp [dictInsertDraw, lookupD, h, h2]
  | cons e rest ih =>
    by_cases he : e.1 = d.date
    · simp only [dictInsertDraw, if_pos he, lookupD]
      by_cases h : dt = d.date
      · rw [if_pos (by rw [he, h]), if_pos h]
      · have h2 : ¬ e.1 = dt := by
          rw [he]
          exact fun hh => h hh.symm
        rw [if_neg h2, if_neg h]
        simp only [lookupD, if_neg h2]
    · simp only [dictInsertDraw, if_neg he, lookupD, ih]
      by_cases h : dt = d.date
      · have h2 : ¬ e.1 = dt := by
          rw [h]
          exact he
        simp [h, h2, he]
      · simp [h]

theorem lookupD_foldl (l : List Draw) (dt : String) :
    lookupD (l.foldl dictInsertDraw []) dt = lastWithDate l dt := by
  induction l using List.reverseRecOn with
  | nil => simp [lookupD, lastWithDate]
  | append_singleton l d ih =>
    rw [List.foldl_append, List.foldl_cons, List.foldl_nil, lookupD_dictInsert,
      lastWithDate, List.filter_append]
    by_cases h : d.date = dt
    · simp [h, lastWithDate]
    · have h2 : ¬ dt = d.date := fun hh => h hh.symm
      simp only [if_neg h2, List.filter_cons, h]
      simpa [lastWithDate] using ih

theorem lookupD_entry (m : List (String × Draw)) (e : String × Draw)
    (hn : (m.map Prod.fst).Nodup) (he : e ∈ m) : lookupD m e.1 = some e.2 := by
  induction m with
  | nil => simp at he
  | cons f rest ih =>
    rw [List.mem_cons] at he
    simp only [List.map_cons, List.nodup_cons] at hn
    rcases he with he | he
    · simp [lookupD, he]
    · have hf : ¬ f.1 = e.1 := by
        intro h
        exact hn.1 (h ▸ List.mem_map_of_mem Prod.fst he)
      simp only [lookupD, if_neg hf]
      exact ih hn.2 he

theorem mem_of_lookupD (m : List (String × Draw)) (k : String) (v : Draw)
    (h : lookupD m k = some v) : (k, v) ∈ m := by
  induction m with
  | nil => simp [lookupD] at h
  | cons e rest ih =>
    by_cases he : e.1 = k
    · simp only [lookupD, if_pos he, Option.some.injEq] at h
      have h2 : e = (k, v) := by
        rw [← he, ← h]
      rw [← h2]
      exact List.mem_cons_self e rest
    · simp only [lookupD, if_neg he] at h
      exact List.mem_cons_of_mem e (ih h)

theorem dictInsert_keys (m : List (String × Draw)) (d : Draw) :
    (dictInsertDraw m d).map Prod.fst =
      if d.date ∈ m.map Prod.fst then m.map Prod.fst else m.map Prod.fst ++ [d.date] := by
  induction m with
  | nil => simp [dictInsertDraw]
  | cons e rest ih =>
    by_cases he : e.1 = d.date
    · simp [dictInsertDraw, he]
    · simp only [dictInsertDraw, if_neg he, List.map_cons, ih]
      have h2 : ¬ d.date = e.1 := fun h => he h.symm
      by_cases hk : d.date ∈ rest.map Prod.fst <;> simp [h2, hk]

theorem dict_keys_nodup (l : List Draw) (m : List (String × Draw))
    (h : (m.map Prod.fst).Nodup) : ((l.foldl dictInsertDraw m).map Prod.fst).Nodup := by
  induction l generalizing m with
  | nil => exact h
  | cons x xs ih =>
    rw [List.foldl_cons]
    apply ih
    rw [dictInsert_keys]
    by_cases hk : x.date ∈ m.map Prod.fst
    · simpa [hk] using h
    · simp only [if_neg hk]
      simpa [List.nodup_append, hk] using h

theorem dict_consistent_insert (m : List (String × Draw)) (d : Draw)
    (hm : ∀ e ∈ m, e.1 = e.2.date) : ∀ e ∈ dictInsertDraw m d, e.1 = e.2.date := by
  induction m with
  | nil =>
    intro e he
    simp [dictInsertDraw] at he
    simp [he]
  | cons f rest ih =>
    by_cases hf : f.1 = d.date
    · simp only [dictInsertDraw, if_pos hf]
      intro e he
      rw [List.mem_cons] at he
      rcases he with he | he
      · simp [he, hf]
      · exact hm e (List.mem_cons_of_mem f he)
    · simp only [dictInsertDraw, if_neg hf]
      intro e he
      rw [List.mem_cons] at he
      rcases he with he | he
      · exact he ▸ hm f (List.mem_cons_self f rest)
      · exact ih (fun e' h' => hm e' (List.mem_cons_of_mem f h')) e he

theorem dict_consistent (l : List Draw) (m : List (String × Draw))
    (hm : ∀ e ∈ m, e.1 = e.2.date) : ∀ e ∈ l.foldl dictInsertDraw m, e.1 = e.2.date := by
  induction l generalizing m with
  | nil => exact hm
  | cons x xs ih =>
    rw [List.foldl_cons]
    exact ih (dictInsertDraw m x) (dict_consistent_insert m x hm)

theorem mem_mergeByDate (all : List Draw) (d : Draw) :
    d ∈ mergeByDate all ↔ lastWithDate all d.date = some d := by
  rw [mergeByDate]
  constructor
  · intro h
    rw [List.mem_map] at h
    obtain ⟨e, he, rfl⟩ := h
    have hcons := dict_consistent all [] (by simp) e he
    have hlk := lookupD_entry _ e (dict_keys_nodup all [] (by simp)) he
    rw [hcons] at hlk
    rw [← lookupD_foldl]
    exact hlk
  · intro h
    rw [← lookupD_foldl] at h
    have := mem_of_lookupD _ _ _ h
    exact List.mem_map_of_mem Prod.snd this

theorem mergeByDate_dates_nodup (all : List Draw) :
    ((mergeByDate all).map (fun d => d.date)).Nodup := by
  rw [mergeByDate, List.map_map]
  have hkeys := dict_keys_nodup all [] (by simp)
  have hcons := dict_consistent all [] (by simp)
  have heq : (all.foldl dictInsertDraw []).map ((fun d => d.date) ∘ Prod.snd) =
      (all.foldl dictInsertDraw []).map Prod.fst := by
    apply List.map_congr_left
    intro e he
    exact (hcons e he).symm
  rw [heq]
  exact hkeys

theorem dateLe_trans : ∀ (a b c : Draw), dateLe a b → dateLe b c → dateLe a c := by
  intro a b c h1 h2
  simp only [dateLe, decide_eq_true_iff] at h1 h2 ⊢
  exact le_trans h1 h2

theorem dateLe_total : ∀ (a b : Draw), dateLe a b || dateLe b a := by
  intro a b
  simp only [dateLe]
  rcases le_total a.date b.date with h | h <;> simp [h]

theorem fetch_draws_merge_perm (all : List Draw) :
    List.Perm (fetch_draws_merge all) (mergeByDate all) :=
  List.mergeSort_perm _ _

theorem fetch_draws_merge_sorted (all : List Draw) :
    (fetch_draws_merge all).Pairwise (fun a b => a.date ≤ b.date) := by
  have h := List.sorted_mergeSort dateLe_trans dateLe_total (mergeByDate all)
  exact h.imp (by simp [dateLe])

theorem fetch_draws_merge_dates_nodup (all : List Draw) :
    ((fetch_draws_merge all).map (fun d => d.date)).Nodup := by
  have hperm : List.Perm ((fetch_draws_merge all).map (fun d => d.date))
      ((mergeByDate all).map (fun d => d.date)) :=
    (fetch_draws_merge_perm all).map _
  exact hperm.nodup_iff.mpr (mergeByDate_dates_nodup all)

theorem foldl_dictInsert_ne_nil (x : Draw) (xs : List Draw) (m : List (String × Draw)) :
    (x :: xs).foldl dictInsertDraw m ≠ [] := by
  induction xs generalizing x m with
  | nil =>
    simp only [List.foldl_cons, List.foldl_nil]
    cases m with
    | nil => simp [dictInsertDraw]
    | cons e rest =>
      by_cases h : e.1 = x.date <;> simp [dictInsertDraw, h]
  | cons y ys ih =>
    rw [List.foldl_cons]
    exact ih y (dictInsertDraw m x)

theorem mergeByDate_ne_nil (x : Draw) (xs : List Draw) :
    mergeByDate (x :: xs) ≠ [] := by
  rw [mergeByDate]
  intro h
  rw [List.map_eq_nil_iff] at h
  exact foldl_dictInsert_ne_nil x xs [] h

/-!
### Claim C4 — last-write-wins merge
-/

/-- **C4**: for per-source record lists accumulated in fetch order, the
collector's merged timeline contains a record exactly when it is the
latest record carrying its date in the accumulated order — so of several
same-date records exactly the last one is retained and all earlier ones
are discarded. -/
theorem claim_C4_last_write_wins :
    ∀ (parts : List (List Draw)) (d : Draw),
      d ∈ fetch_draws_merge parts.flatten ↔ lastWithDate parts.flatten d.date = some d := by
  intro parts d
  rw [(fetch_draws_merge_perm parts.flatten).mem_iff]
  exact mem_mergeByDate parts.flatten d

/-!
### Claim C5 — collector output invariant
-/

/-- **C5**: whatever record lists the sources produced, the collector's
timeline is strictly ascending by date (Python's code-point order on the
ISO date strings) and contains no two records with the same date. -/
theorem claim_C5_collector_sorted :
    ∀ parts : List (List Draw),
      (fetch_draws_merge parts.flatten).Pairwise (fun a b => a.date < b.date) ∧
      ((fetch_draws_merge parts.flatten).map (fun d => d.date)).Nodup := by
  intro parts
  refine ⟨?_, fetch_draws_merge_dates_nodup parts.flatten⟩
  have hle := fetch_draws_merge_sorted parts.flatten
  have hne : (fetch_draws_merge parts.flatten).Pairwise (fun a b => a.date ≠ b.date) := by
    have h := fetch_draws_merge_dates_nodup parts.flatten
    rw [List.Nodup, List.pairwise_map] at h
    exact h
  exact (hle.and hne).imp (fun h => lt_of_le_of_ne h.1 h.2)

/-!
### Claim C9 — exit codes
-/

/-- **C9**: with zero draws parsed from all sources the run aborts through
the deliberate `SystemExit("No draws parsed...")`, i.e. exit code 1 (a
fatal condition, not an unhandled fault: the pipeline result is the error
value of that message); with at least one parsed draw the pipeline
completes, produces the output document, and the process exits 0. -/
theorem claim_C9_exit_codes :
    (∀ parts : List (List Draw), parts.flatten = [] →
      runPipeline parts =
        Except.error "No draws parsed from sources. Check network or parsers." ∧
      mainExitCode parts = 1) ∧
    (∀ parts : List (List Draw), parts.flatten ≠ [] →
      mainExitCode parts = 0 ∧
      ∃ result, runPipeline parts = Except.ok result) := by
  constructor
  · intro parts h
    have hm : fetch_draws_merge parts.flatten = [] := by
      rw [h]
      simp [fetch_draws_merge, mergeByDate]
    constructor
    · simp only [runPipeline, hm]
    · simp only [mainExitCode, runPipeline, hm]
  · intro parts h
    obtain ⟨x, xs, hxs⟩ : ∃ x xs, parts.flatten = x :: xs := by
      cases hocc : parts.flatten with
      | nil => exact absurd hocc h
      | cons x xs => exact ⟨x, xs, rfl⟩
    have hm : fetch_draws_merge parts.flatten ≠ [] := by
      rw [fetch_draws_merge]
      intro hnil
      have hlen := congrArg List.length hnil
      rw [List.length_mergeSort] at hlen
      rw [hxs] at hlen
      exact mergeByDate_ne_nil x xs (List.eq_nil_of_length_eq_zero hlen)
    obtain ⟨y, ys, hys⟩ : ∃ y ys, fetch_draws_merge parts.flatten = y :: ys := by
      cases hocc : fetch_draws_merge parts.flatten with
      | nil => exact absurd hocc hm
      | cons y ys => exact ⟨y, ys, rfl⟩
    constructor
    · simp only [mainExitCode, runPipeline, hys]
    · refine ⟨?_, ?_⟩
      · exact (y :: ys,
          { num_draws := (y :: ys).length
            top_trio := compute_top_trio (y :: ys)
            next_pair := compute_next_pairs_for_trio (y :: ys) (compute_top_trio (y :: ys)).1
            monthly := compute_monthly_first_second_counts (y :: ys) })
      · simp only [runPipeline, hys]

/-- Witness for C9: two empty sources exit 1; one source with one record
exits 0, with all hypotheses discharged by evaluation. -/
theorem claim_C9_exit_codes_witness :
    mainExitCode [[], []] = 1 ∧ mainExitCode [[⟨"2024-01-05", [1,2,3,4,5]⟩]] = 0 :=
  ⟨(claim_C9_exit_codes.1 [[], []] (by decide)).2,
   (claim_C9_exit_codes.2 [[⟨"2024-01-05", [1,2,3,4,5]⟩]] (by decide)).1⟩

/-!
### Month-grouping lemmas
-/

theorem groupLookup_addToGroup (acc : List ((Nat × Nat) × List Draw)) (k' : Nat × Nat)
    (d : Draw) (k : Nat × Nat) :
    groupLookup (addToGroup acc k' d) k =
      if k = k' then
        (match groupLookup acc k' with
         | some arr => some (arr ++ [d])
         | none => some [d])
      else groupLookup acc k := by
  induction acc with
  | nil =>
    by_cases h : k = k'
    · subst h
      simp [addToGroup, groupLookup]
    · have h2 : ¬ k' = k := fun hh => h hh.symm
      simp [addToGroup, groupLookup, h, h2]
  | cons e rest ih =>
    by_cases he : e.1 = k'
    · simp only [addToGroup, if_pos he, groupLookup]
      by_cases h : k = k'
      · subst h
        simp [he]
      · have h2 : ¬ e.1 = k := by
          rw [he]
          exact fun hh => h hh.symm
        simp [h2, h]
    · simp only [addToGroup, if_neg he, groupLookup, ih]
      by_cases h : k = k'
      · subst h
        simp [he]
      · simp [h]

theorem groupLookup_groupByYM (draws : List Draw) (ym : Nat × Nat) :
    groupLookup (groupByYM draws) ym =
      if draws.filter (fun d => decide (isoYM d.date = ym)) = [] then none
      else some (draws.filter (fun d => decide (isoYM d.date = ym))) := by
  induction draws using List.reverseRecOn with
  | nil => simp [groupByYM, groupLookup]
  | append_singleton l d ih =>
    simp only [groupByYM] at ih ⊢
    rw [List.foldl_append, List.foldl_cons, List.foldl_nil, groupLookup_addToGroup,
      List.filter_append, ih]
    by_cases hd : isoYM d.date = ym
    · rw [if_pos hd.symm]
      have hone : List.filter (fun d' => decide (isoYM d'.date = ym)) [d] = [d] := by
        simp [hd]
      rw [hone, hd]
      by_cases hfl : l.filter (fun d' => decide (isoYM d'.date = ym)) = []
      · simp [hfl, ih]
      · simp [hfl, ih]
    · have h2 : ¬ ym = isoYM d.date := fun hh => hd hh.symm
      rw [if_neg h2]
      have hone : List.filter (fun d' => decide (isoYM d'.date = ym)) [d] = [] := by
        simp [hd]
      rw [hone, List.append_nil]

theorem addToGroup_keys (acc : List ((Nat × Nat) × List Draw)) (k : Nat × Nat) (d : Draw) :
    (addToGroup acc k d).map Prod.fst =
      if k ∈ acc.map Prod.fst then acc.map Prod.fst else acc.map Prod.fst ++ [k] := by
  induction acc with
  | nil => simp [addToGroup]
  | cons e rest ih =>
    by_cases he : e.1 = k
    · simp [addToGroup, he]
    · simp only [addToGroup, if_neg he, List.map_cons, ih]
      have h2 : ¬ k = e.1 := fun h => he h.symm
      by_cases hk : k ∈ rest.map Prod.fst <;> simp [h2, hk]

theorem groupByYM_keys (draws : List Draw) :
    (groupByYM draws).map Prod.fst = monthsFirstSeen draws := by
  have hgen : ∀ acc : List ((Nat × Nat) × List Draw),
      (draws.foldl (fun a d => addToGroup a (isoYM d.date) d) acc).map Prod.fst =
        draws.foldl (fun ks d => if isoYM d.date ∈ ks then ks else ks ++ [isoYM d.date])
          (acc.map Prod.fst) := by
    induction draws with
    | nil => intro acc; rfl
    | cons x xs ih =>
      intro acc
      rw [List.foldl_cons, List.foldl_cons, ih, addToGroup_keys]
  rw [groupByYM, monthsFirstSeen, hgen]
  rfl

theorem groupKeys_nodup (draws : List Draw) :
    ((groupByYM draws).map Prod.fst).Nodup := by
  rw [groupByYM]
  have hgen : ∀ acc : List ((Nat × Nat) × List Draw), (acc.map Prod.fst).Nodup →
      ((draws.foldl (fun a d => addToGroup a (isoYM d.date) d) acc).map Prod.fst).Nodup := by
    induction draws with
    | nil => intro acc h; exact h
    | cons x xs ih =>
      intro acc h
      rw [List.foldl_cons]
      apply ih
      rw [addToGroup_keys]
      by_cases hk : isoYM x.date ∈ acc.map Prod.fst
      · simpa [hk] using h
      · simp only [if_neg hk]
        simpa [List.nodup_append, hk] using h
  exact hgen [] (by simp)

theorem groupLookup_entry (acc : List ((Nat × Nat) × List Draw)) (e : (Nat × Nat) × List Draw)
    (hn : (acc.map Prod.fst).Nodup) (he : e ∈ acc) : groupLookup acc e.1 = some e.2 := by
  induction acc with
  | nil => simp at he
  | cons f rest ih =>
    rw [List.mem_cons] at he
    simp only [List.map_cons, List.nodup_cons] at hn
    rcases he with he | he
    · simp [groupLookup, he]
    · have hf : ¬ f.1 = e.1 := by
        intro h
        exact hn.1 (h ▸ List.mem_map_of_mem Prod.fst he)
      simp only [groupLookup, if_neg hf]
      exact ih hn.2 he

theorem group_entry_eq_filter (draws : List Draw) (e : (Nat × Nat) × List Draw)
    (he : e ∈ groupByYM draws) :
    e.2 = draws.filter (fun d => decide (isoYM d.date = e.1)) := by
  have h1 := groupLookup_entry _ e (groupKeys_nodup draws) he
  rw [groupLookup_groupByYM] at h1
  by_cases h : draws.filter (fun d => decide (isoYM d.date = e.1)) = []
  · rw [if_pos h] at h1
    exact absurd h1 (by simp)
  · rw [if_neg h] at h1
    exact (Option.some.injEq _ _ ▸ h1.symm)

theorem flatten_map_eq_filterMap {β γ : Type} (L : List β) (f : β → List γ) (g : β → Option γ)
    (hpt : ∀ e ∈ L, f e = (g e).toList) : (L.map f).flatten = L.filterMap g := by
  induction L with
  | nil => rfl
  | cons e rest ih =>
    rw [List.map_cons, List.flatten_cons, List.filterMap_cons, hpt e (List.mem_cons_self e rest)]
    have ih2 := ih (fun x hx => hpt x (List.mem_cons_of_mem e hx))
    cases hge : g e with
    | none => simpa using ih2
    | some v => simpa using ih2

theorem group_pairwise (draws : List Draw) (e : (Nat × Nat) × List Draw)
    (hTL : draws.Pairwise (fun a b => a.date < b.date)) (he : e ∈ groupByYM draws) :
    e.2.Pairwise (fun a b => a.date < b.date) := by
  rw [group_entry_eq_filter draws e he]
  exact List.Pairwise.sublist (List.filter_sublist draws) hTL

theorem sortGroup_eq_self (draws : List Draw) (e : (Nat × Nat) × List Draw)
    (hTL : draws.Pairwise (fun a b => a.date < b.date)) (he : e ∈ groupByYM draws) :
    e.2.mergeSort dateLe = e.2 := by
  apply List.mergeSort_of_sorted
  apply (group_pairwise draws e hTL he).imp
  intro a b hab
  simp only [dateLe, decide_eq_true_iff]
  exact le_of_lt hab

theorem mem_draws_of_mem_group (draws : List Draw) (e : (Nat × Nat) × List Draw)
    (he : e ∈ groupByYM draws) (d : Draw) (hd : d ∈ e.2) : d ∈ draws := by
  rw [group_entry_eq_filter draws e he] at hd
  exact (List.mem_filter.mp hd).1

theorem month_of_mem_group (draws : List Draw) (e : (Nat × Nat) × List Draw)
    (he : e ∈ groupByYM draws) (d : Draw) (hd : d ∈ e.2) : isoYM d.date = e.1 := by
  rw [group_entry_eq_filter draws e he] at hd
  simpa using (List.mem_filter.mp hd).2

theorem pairKeyLe_trans : ∀ (a b c : Nat × Nat), pairKeyLe a b → pairKeyLe b c → pairKeyLe a c := by
  intro a b c h1 h2
  simp only [pairKeyLe, decide_eq_true_iff] at h1 h2 ⊢
  omega

theorem pairKeyLe_total : ∀ (a b : Nat × Nat), pairKeyLe a b || pairKeyLe b a := by
  intro a b
  simp only [pairKeyLe, Bool.or_eq_true, decide_eq_true_iff]
  omega


/-- The per-month second-number selection (`nums[1]` guarded by
`len(nums) >= 2`, lines 183-185) equals the optional second element. -/
theorem second_eq_aux (nums : List Nat) :
    (match nums with
     | _ :: n2 :: _ => ([n2] : List Nat)
     | _ => []) = (nums.get? 1).toList := by
  cases nums with
  | nil => rfl
  | cons x r =>
    cases r with
    | nil => rfl
    | cons y r2 => rfl

theorem mem_second_match (nums : List Nat) (v : Nat)
    (hv : v ∈ (match nums with
      | _ :: n2 :: _ => ([n2] : List Nat)
      | _ => [])) : nums.get? 1 = some v := by
  cases nums with
  | nil => simp at hv
  | cons x r =>
    cases r with
    | nil => simp at hv
    | cons y r2 =>
      have h : v = y := by simpa using hv
      rw [h]
      rfl

/-!
### Claim C3 — monthly second-number analysis
-/

unseal List.merge List.mergeSort String.ltb in
/-- **C3**: on every timeline (strictly ascending dates),
`compute_monthly_first_second_counts` groups draws by (year, month),
selects the chronologically earliest draw of each group, tallies that
draw's second stored number, and returns the frequency mapping with keys
strictly ascending together with the two most frequent values: the tallied
stream equals the spec-side reference `specMonthSeconds`, every tallied
value comes from a draw that is date-minimal within its month, the counts
entries are exactly the positive tallies, and `top2` holds values whose
tally dominates every value outside it.  On the two January 2024 draws of
the spec's example only `2024-01-05` contributes, tallying 9 once. -/
theorem claim_C3_monthly_second :
    compute_monthly_first_second_counts
        [⟨"2024-01-05", [2,9,15,22,33]⟩, ⟨"2024-01-20", [1,2,3,4,5]⟩] =
      { counts := [(9, 1)], top2 := [9] } ∧
    ∀ draws : List Draw, draws.Pairwise (fun a b => a.date < b.date) →
      secondNumbers draws = specMonthSeconds draws ∧
      (∀ v ∈ secondNumbers draws, ∃ d ∈ draws, d.numbers.get? 1 = some v ∧
        ∀ d' ∈ draws, isoYM d'.date = isoYM d.date → d.date ≤ d'.date) ∧
      (compute_monthly_first_second_counts draws).counts.Pairwise
        (fun a b => a.1 < b.1) ∧
      (∀ n cnt, (n, cnt) ∈ (compute_monthly_first_second_counts draws).counts ↔
        (0 < cnt ∧ cnt = (specMonthSeconds draws).count n)) ∧
      (∀ m, m ∉ (compute_monthly_first_second_counts draws).top2 →
        ∀ x ∈ (compute_monthly_first_second_counts draws).top2,
          (specMonthSeconds draws).count m ≤ (specMonthSeconds draws).count x) ∧
      (compute_monthly_first_second_counts draws).top2.length =
        min 2 ((secondNumbers draws).foldl bump []).length := by
  refine ⟨by decide, ?_⟩
  intro draws hTL
  have hsec : secondNumbers draws = specMonthSeconds draws := by
    rw [secondNumbers, specMonthSeconds, ← groupByYM_keys, List.filterMap_map]
    apply flatten_map_eq_filterMap
    intro e he
    simp only [Function.comp_apply]
    rw [sortGroup_eq_self draws e hTL he, ← group_entry_eq_filter draws e he]
    cases h2 : e.2 with
    | nil => rfl
    | cons a t => exact second_eq_aux a.numbers
  have hcounts : (compute_monthly_first_second_counts draws).counts =
      ((secondNumbers draws).foldl bump []).mergeSort pairKeyLe := rfl
  have htop2 : (compute_monthly_first_second_counts draws).top2 =
      ((mostCommon ((secondNumbers draws).foldl bump [])).take 2).map (fun e => e.1) := rfl
  refine ⟨hsec, ?_, ?_, ?_, ?_, ?_⟩
  · intro v hv
    rw [secondNumbers, List.mem_flatten] at hv
    obtain ⟨lv, hlv, hvin⟩ := hv
    rw [List.mem_map] at hlv
    obtain ⟨e, he, rfl⟩ := hlv
    rw [sortGroup_eq_self draws e hTL he] at hvin
    cases h2 : e.2 with
    | nil =>
      rw [h2] at hvin
      simp at hvin
    | cons a t =>
      rw [h2] at hvin
      have ha : a ∈ e.2 := by
        rw [h2]
        exact List.mem_cons_self a t
      have had : a ∈ draws := mem_draws_of_mem_group draws e he a ha
      have ham : isoYM a.date = e.1 := month_of_mem_group draws e he a ha
      have hget : a.numbers.get? 1 = some v := mem_second_match a.numbers v hvin
      refine ⟨a, had, hget, ?_⟩
      intro d' hd' hym
      have hd'f : d' ∈ e.2 := by
        rw [group_entry_eq_filter draws e he, List.mem_filter]
        refine ⟨hd', by simp [hym, ham]⟩
      rw [h2, List.mem_cons] at hd'f
      rcases hd'f with hd'f | hd'f
      · rw [hd'f]
      · have hp := group_pairwise draws e hTL he
        rw [h2] at hp
        exact le_of_lt ((List.pairwise_cons.mp hp).1 d' hd'f)
  · rw [hcounts]
    have hs := List.sorted_mergeSort pairKeyLe_trans pairKeyLe_total
      ((secondNumbers draws).foldl bump [])
    have hsp : (((secondNumbers draws).foldl bump []).mergeSort pairKeyLe).Pairwise
        (fun a b : Nat × Nat => a.1 < b.1 ∨ (a.1 = b.1 ∧ a.2 ≤ b.2)) :=
      hs.imp (by simp [pairKeyLe])
    have hperm := List.mergeSort_perm ((secondNumbers draws).foldl bump []) pairKeyLe
    have hnd : ((((secondNumbers draws).foldl bump []).mergeSort pairKeyLe).map
        Prod.fst).Nodup :=
      ((hperm.map Prod.fst).nodup_iff).mpr (counter_keys_nodup (secondNumbers draws))
    have hne : (((secondNumbers draws).foldl bump []).mergeSort pairKeyLe).Pairwise
        (fun a b : Nat × Nat => a.1 ≠ b.1) := by
      rw [List.Nodup, List.pairwise_map] at hnd
      exact hnd
    refine (hsp.and hne).imp ?_
    intro a b h
    rcases h with ⟨h1 | ⟨he2, _⟩, hne2⟩
    · exact h1
    · exact absurd he2 hne2
  · intro n cnt
    rw [hcounts, ← hsec]
    constructor
    · intro hmem
      have hc := (List.mergeSort_perm _ pairKeyLe).subset hmem
      refine ⟨pos_of_mem_foldl_bump (secondNumbers draws) [] (by simp) (n, cnt) hc, ?_⟩
      exact counter_entry_count (secondNumbers draws) (n, cnt) hc
    · rintro ⟨hpos, hcnt⟩
      subst hcnt
      have hc := counter_mem_of_count_pos (secondNumbers draws) n hpos
      exact (List.mergeSort_perm _ pairKeyLe).symm.subset hc
  · intro m hm x hx
    rw [htop2] at hm hx
    rw [← hsec]
    cases hmc : mostCommon ((secondNumbers draws).foldl bump []) with
    | nil =>
      rw [hmc] at hx
      simp at hx
    | cons top rest =>
      rw [hmc] at hm hx
      obtain ⟨h1, h2, h3, h4, h5, h6⟩ :=
        mostCommon_counter_spec (secondNumbers draws) top rest 2 hmc
      rw [List.mem_map] at hx
      obtain ⟨ex, hex, rfl⟩ := hx
      have hxcount := h3 ex hex
      have hdom := h6 m (by exact hm) ex hex
      exact hxcount ▸ hdom
  · rw [htop2, List.length_map, List.length_take, (mostCommon_perm _).length_eq]

unseal List.merge List.mergeSort String.ltb in
/-- Witness for C3: the timeline hypothesis discharged by evaluation on
the spec's example timeline. -/
theorem claim_C3_monthly_second_witness :
    ([⟨"2024-01-05", [2,9,15,22,33]⟩, ⟨"2024-01-20", [1,2,3,4,5]⟩] : List Draw).Pairwise
      (fun a b => a.date < b.date) ∧
    secondNumbers [⟨"2024-01-05", [2,9,15,22,33]⟩, ⟨"2024-01-20", [1,2,3,4,5]⟩] =
      specMonthSeconds [⟨"2024-01-05", [2,9,15,22,33]⟩, ⟨"2024-01-20", [1,2,3,4,5]⟩] :=
  ⟨by decide,
   (claim_C3_monthly_second.2
     [⟨"2024-01-05", [2,9,15,22,33]⟩, ⟨"2024-01-20", [1,2,3,4,5]⟩] (by decide)).1⟩

/-!
### Claim C10 — short number lists are skipped
-/

unseal List.merge List.mergeSort String.ltb in
/-- **C10**: the monthly-second-number computation is total on every
record list: a month whose earliest draw has fewer than two numbers is
silently skipped (the `len(nums) >= 2` guard), every tallied value comes
from a record with at least two numbers, and when every record is short
the result is the empty mapping rather than a failure. -/
theorem claim_C10_short_numbers_guard :
    compute_monthly_first_second_counts [⟨"2024-01-05", [7]⟩, ⟨"2024-02-03", [1,2,3,4,5]⟩] =
      { counts := [(2, 1)], top2 := [2] } ∧
    (∀ draws : List Draw, (∀ d ∈ draws, d.numbers.length < 2) →
      compute_monthly_first_second_counts draws = { counts := [], top2 := [] }) ∧
    (∀ draws : List Draw, ∀ v ∈ secondNumbers draws,
      ∃ d ∈ draws, 2 ≤ d.numbers.length ∧ d.numbers.get? 1 = some v) := by
  refine ⟨by decide, ?_, ?_⟩
  · intro draws h
    have hsec : secondNumbers draws = [] := by
      rw [secondNumbers, List.flatten_eq_nil_iff]
      intro l hl
      rw [List.mem_map] at hl
      obtain ⟨e, he, rfl⟩ := hl
      cases hms : e.2.mergeSort dateLe with
      | nil => rfl
      | cons a t =>
        have ha : a ∈ e.2 := by
          have h2 : a ∈ e.2.mergeSort dateLe := by
            rw [hms]
            exact List.mem_cons_self a t
          exact (List.mergeSort_perm e.2 dateLe).subset h2
        have had : a ∈ draws := mem_draws_of_mem_group draws e he a ha
        have hlen := h a had
        have h2 : (a.numbers.get? 1).toList = [] := by
          cases hn : a.numbers with
          | nil => rfl
          | cons x r =>
            cases r with
            | nil => rfl
            | cons y r2 =>
              exfalso
              rw [hn] at hlen
              simp only [List.length_cons] at hlen
              omega
        exact (second_eq_aux a.numbers).trans h2
    have hc : (secondNumbers draws).foldl bump [] = ([] : List (Nat × Nat)) := by
      rw [hsec]
      rfl
    simp [compute_monthly_first_second_counts, hc, mostCommon]
  · intro draws v hv
    rw [secondNumbers, List.mem_flatten] at hv
    obtain ⟨lv, hlv, hvin⟩ := hv
    rw [List.mem_map] at hlv
    obtain ⟨e, he, rfl⟩ := hlv
    cases hms : e.2.mergeSort dateLe with
    | nil =>
      rw [hms] at hvin
      simp at hvin
    | cons a t =>
      rw [hms] at hvin
      have ha : a ∈ e.2 := by
        have h2 : a ∈ e.2.mergeSort dateLe := by
          rw [hms]
          exact List.mem_cons_self a t
        exact (List.mergeSort_perm e.2 dateLe).subset h2
      have had := mem_draws_of_mem_group draws e he a ha
      have hget : a.numbers.get? 1 = some v := mem_second_match a.numbers v hvin
      refine ⟨a, had, ?_, hget⟩
      cases hn : a.numbers with
      | nil =>
        rw [hn] at hget
        simp at hget
      | cons x r =>
        cases r with
        | nil =>
          rw [hn] at hget
          simp at hget
        | cons y r2 =>
          simp

unseal List.merge List.mergeSort String.ltb in
/-- Witness for C10: an all-short record list yields the empty result, and
a tallied value on the example timeline traces back to a record with at
least two numbers; hypotheses discharged by evaluation. -/
theorem claim_C10_short_numbers_guard_witness :
    (∀ d ∈ ([⟨"2024-01-05", [7]⟩] : List Draw), d.numbers.length < 2) ∧
    compute_monthly_first_second_counts [⟨"2024-01-05", [7]⟩] = { counts := [], top2 := [] } ∧
    ∃ d ∈ ([⟨"2024-01-05", [2,9,15,22,33]⟩] : List Draw),
      2 ≤ d.numbers.length ∧ d.numbers.get? 1 = some 9 :=
  ⟨by decide,
   claim_C10_short_numbers_guard.2.1 [⟨"2024-01-05", [7]⟩] (by decide),
   claim_C10_short_numbers_guard.2.2 [⟨"2024-01-05", [2,9,15,22,33]⟩] 9 (by decide)⟩

/-!
### Parser lemmas
-/

theorem findall12_tokens : ∀ (l : List Char), ∀ t ∈ findall12 l,
    1 ≤ t.length ∧ t.length ≤ 2 ∧ ∀ c ∈ t, isDig c = true := by
  intro l
  induction l using findall12.induct with
  | case1 => simp [findall12]
  | case2 c hc =>
    intro t ht
    have heq : findall12 [c] = [[c]] := by
      simp [findall12, hc]
    rw [heq, List.mem_singleton] at ht
    subst ht
    simp [hc]
  | case3 c hc c2 rest hc2 ih =>
    intro t ht
    have heq : findall12 (c :: c2 :: rest) = [c, c2] :: findall12 rest := by
      simp [findall12, hc, hc2]
    rw [heq, List.mem_cons] at ht
    rcases ht with rfl | ht
    · refine ⟨by simp, by simp, ?_⟩
      intro x hx
      rw [List.mem_cons, List.mem_singleton] at hx
      rcases hx with rfl | rfl
      · exact hc
      · exact hc2
    · exact ih t ht
  | case4 c hc c2 rest hc2 ih =>
    intro t ht
    have heq : findall12 (c :: c2 :: rest) = [c] :: findall12 (c2 :: rest) := by
      simp [findall12, hc, hc2]
    rw [heq, List.mem_cons] at ht
    rcases ht with rfl | ht
    · refine ⟨by simp, by simp, ?_⟩
      intro x hx
      rw [List.mem_singleton] at hx
      subst hx
      exact hc
    · exact ih t ht
  | case5 c rest hc ih =>
    intro t ht
    have heq : findall12 (c :: rest) = findall12 rest := by
      cases rest with
      | nil => simp [findall12, hc]
      | cons c2 rest2 => simp [findall12, hc]
    rw [heq] at ht
    exact ih t ht

theorem digitsToNat_le_99 (t : List Char) (h1 : t.length ≤ 2)
    (h2 : ∀ c ∈ t, isDig c = true) : digitsToNat t ≤ 99 := by
  have hb : ∀ c ∈ t, c.toNat ≤ 57 := by
    intro c hc
    have := h2 c hc
    simp only [isDig, Bool.and_eq_true, decide_eq_true_iff] at this
    exact this.2
  match t with
  | [] => simp [digitsToNat]
  | [a] =>
    have := hb a (by simp)
    simp only [digitsToNat, List.foldl_cons, List.foldl_nil]
    omega
  | [a, b] =>
    have ha := hb a (by simp)
    have hbb := hb b (by simp)
    simp only [digitsToNat, List.foldl_cons, List.foldl_nil]
    omega
  | a :: b :: c :: r => simp at h1

theorem mkDraw_numbers_le (m : PMatch) (r : Draw) (h : mkDraw m = some r) :
    ∀ n ∈ r.numbers, n ≤ 99 := by
  intro n hn
  rw [mkDraw] at h
  by_cases hlen : (((findall12 m.nums).map digitsToNat).mergeSort
      (fun a b => decide (a ≤ b))).length = 5
  · rw [if_pos hlen, Option.some.injEq] at h
    rw [← h] at hn
    simp only [List.mem_mergeSort, List.mem_map] at hn
    obtain ⟨t, ht, rfl⟩ := hn
    obtain ⟨-, h1, h2⟩ := findall12_tokens m.nums t ht
    exact digitsToNat_le_99 t h1 h2
  · rw [if_neg hlen] at h
    exact absurd h (by simp)

theorem mem_dedupAux (l : List Draw) (seen : List Draw) (x : Draw) :
    x ∈ dedupAux l seen ↔ x ∈ l ∧ x ∉ seen := by
  induction l generalizing seen with
  | nil => simp [dedupAux]
  | cons d rest ih =>
    by_cases hd : d ∈ seen
    · simp only [dedupAux, if_pos hd, ih]
      constructor
      · rintro ⟨h1, h2⟩
        exact ⟨List.mem_cons_of_mem d h1, h2⟩
      · rintro ⟨h1, h2⟩
        rw [List.mem_cons] at h1
        rcases h1 with rfl | h1
        · exact absurd hd h2
        · exact ⟨h1, h2⟩
    · simp only [dedupAux, if_neg hd]
      constructor
      · intro hx
        rw [List.mem_cons] at hx
        rcases hx with rfl | hx
        · exact ⟨List.mem_cons_self x rest, hd⟩
        · obtain ⟨h1, h2⟩ := (ih (d :: seen)).mp hx
          rw [List.mem_cons] at h2
          push_neg at h2
          exact ⟨List.mem_cons_of_mem d h1, h2.2⟩
      · rintro ⟨h1, h2⟩
        rw [List.mem_cons] at h1
        rcases h1 with rfl | h1
        · exact List.mem_cons_self x _
        · by_cases hxd : x = d
          · subst hxd
            exact List.mem_cons_self x _
          · refine List.mem_cons_of_mem d ?_
            refine (ih (d :: seen)).mpr ⟨h1, ?_⟩
            rw [List.mem_cons]
            push_neg
            exact ⟨hxd, h2⟩

theorem nodup_dedupAux (l : List Draw) (seen : List Draw) : (dedupAux l seen).Nodup := by
  induction l generalizing seen with
  | nil => exact List.nodup_nil
  | cons d rest ih =>
    by_cases hd : d ∈ seen
    · simp only [dedupAux, if_pos hd]
      exact ih seen
    · simp only [dedupAux, if_neg hd]
      rw [List.nodup_cons]
      refine ⟨?_, ih (d :: seen)⟩
      intro hmem
      exact ((mem_dedupAux rest (d :: seen) d).mp hmem).2 (List.mem_cons_self d seen)

theorem mem_dedupDraws (l : List Draw) (x : Draw) : x ∈ dedupDraws l ↔ x ∈ l := by
  rw [dedupDraws, mem_dedupAux]
  simp

theorem nodup_dedupDraws (l : List Draw) : (dedupDraws l).Nodup :=
  nodup_dedupAux l []

/-!
### Claim C6 — the 1-39 range is NOT enforced by the parsers
-/

unseal List.merge List.mergeSort in
/-- Counterexample to C6 as stated: on the lotto8-style date-and-numbers
line pattern (pilio pattern 3, the same regex as the lotto8 parser) a page
naming two-digit values above 39 yields a record containing 99, which lies
outside the lottery's 1-39 range — nothing filters out-of-range values at
parse time. -/
theorem claim_C6_counterexample :
    ∃ r ∈ _extract_draws_from_html_pilio "2025-08-28 99, 98, 97, 96, 95",
      ∃ n ∈ r.numbers, ¬(1 ≤ n ∧ n ≤ 39) := by
  refine ⟨⟨"2025-08-28", [95, 96, 97, 98, 99]⟩, by decide, 99, by decide, by decide⟩

/-- **C6 (amended)**: every number in every record returned by a parser is
the value of a 1-2-digit token, hence at most 99; values outside the
lottery's 1-39 range (0 and 40-99 included) are not filtered at parse
time. -/
theorem claim_C6_amended :
    ∀ (html text : String),
      (∀ r ∈ _extract_draws_from_html_pilio html, ∀ n ∈ r.numbers, n ≤ 99) ∧
      (∀ r ∈ _extract_draws_from_html_lotto8_text text, ∀ n ∈ r.numbers, n ≤ 99) := by
  intro html text
  constructor
  · intro r hr
    rw [_extract_draws_from_html_pilio, mem_dedupDraws, List.mem_filterMap] at hr
    obtain ⟨m, _, hm⟩ := hr
    exact mkDraw_numbers_le m r hm
  · intro r hr
    rw [_extract_draws_from_html_lotto8_text, mem_dedupDraws, List.mem_filterMap] at hr
    obtain ⟨m, _, hm⟩ := hr
    exact mkDraw_numbers_le m r hm

unseal List.merge List.mergeSort in
/-- Witness for C6 (amended), applied to the counterexample page: the
record is in the parser output and its largest number is 99 ≤ 99. -/
theorem claim_C6_amended_witness :
    (⟨"2025-08-28", [95, 96, 97, 98, 99]⟩ : Draw) ∈
      _extract_draws_from_html_pilio "2025-08-28 99, 98, 97, 96, 95" ∧
    (99 : Nat) ≤ 99 :=
  ⟨by decide,
   (claim_C6_amended "2025-08-28 99, 98, 97, 96, 95" "").1
     ⟨"2025-08-28", [95, 96, 97, 98, 99]⟩ (by decide) 99 (by decide)⟩

/-!
### Claim C7 — one sorted record per complete match
-/

theorem natLeB_trans : ∀ (a b c : Nat), decide (a ≤ b) → decide (b ≤ c) → decide (a ≤ c) := by
  intro a b c h1 h2
  simp only [decide_eq_true_iff] at h1 h2 ⊢
  omega

theorem natLeB_total : ∀ (a b : Nat), decide (a ≤ b) || decide (b ≤ a) := by
  intro a b
  simp only [Bool.or_eq_true, decide_eq_true_iff]
  omega

unseal List.merge List.mergeSort in
/-- **C7**: for any HTML input, every pattern match whose captured number
group tokenizes to exactly 5 one-or-two-digit numeric tokens contributes
exactly one record to the pilio parser's output (dedup keeps it unique);
that record's date is `"YYYY-MM-DD"` from the captured groups and its 5
numbers are the token values sorted ascending.  A match with fewer than 5
tokens produces no record, and every output record arises from some match
with exactly 5 tokens. -/
theorem claim_C7_single_sorted_record :
    ∀ html : String,
      (∀ m ∈ pilioMatches html, (findall12 m.nums).length = 5 →
        ∃ r, mkDraw m = some r ∧
          (_extract_draws_from_html_pilio html).count r = 1 ∧
          r.numbers.Pairwise (fun a b => a ≤ b) ∧
          List.Perm r.numbers ((findall12 m.nums).map digitsToNat) ∧
          r.numbers.length = 5 ∧
          r.date = ⟨m.y ++ '-' :: m.mo ++ '-' :: m.d⟩) ∧
      (∀ m ∈ pilioMatches html, (findall12 m.nums).length < 5 → mkDraw m = none) ∧
      (∀ r ∈ _extract_draws_from_html_pilio html,
        ∃ m ∈ pilioMatches html, (findall12 m.nums).length = 5 ∧ mkDraw m = some r) := by
  intro html
  refine ⟨?_, ?_, ?_⟩
  · intro m hm hlen
    have hlen5 : (((findall12 m.nums).map digitsToNat).mergeSort
        (fun a b => decide (a ≤ b))).length = 5 := by
      rw [List.length_mergeSort, List.length_map]
      exact hlen
    refine ⟨⟨⟨m.y ++ '-' :: m.mo ++ '-' :: m.d⟩,
      ((findall12 m.nums).map digitsToNat).mergeSort (fun a b => decide (a ≤ b))⟩, ?_, ?_, ?_, ?_, ?_, ?_⟩
    · rw [mkDraw, if_pos hlen5]
    · have hmem : (⟨⟨m.y ++ '-' :: m.mo ++ '-' :: m.d⟩,
          ((findall12 m.nums).map digitsToNat).mergeSort (fun a b => decide (a ≤ b))⟩ : Draw) ∈
          _extract_draws_from_html_pilio html := by
        rw [_extract_draws_from_html_pilio, mem_dedupDraws, List.mem_filterMap]
        exact ⟨m, hm, by rw [mkDraw, if_pos hlen5]⟩
      exact List.count_eq_one_of_mem
        (nodup_dedupDraws ((pilioMatches html).filterMap mkDraw)) hmem
    · have h := List.sorted_mergeSort natLeB_trans natLeB_total
        ((findall12 m.nums).map digitsToNat)
      exact h.imp (by simp)
    · exact List.mergeSort_perm _ _
    · exact hlen5
    · rfl
  · intro m hm hlen
    rw [mkDraw, if_neg]
    rw [List.length_mergeSort, List.length_map]
    omega
  · intro r hr
    rw [_extract_draws_from_html_pilio, mem_dedupDraws, List.mem_filterMap] at hr
    obtain ⟨m, hm, hsome⟩ := hr
    refine ⟨m, hm, ?_, hsome⟩
    by_cases hlen : (((findall12 m.nums).map digitsToNat).mergeSort
        (fun a b => decide (a ≤ b))).length = 5
    · rw [List.length_mergeSort, List.length_map] at hlen
      exact hlen
    · rw [mkDraw, if_neg hlen] at hsome
      exact absurd hsome (by simp)

unseal List.merge List.mergeSort in
/-- Witness for C7: the pilio page line `2025/08/28 (四) 05, 07, ...` has
a weekday-marker match with exactly 5 tokens; the parser output counts its
sorted record exactly once (the overlapping date-line pass is deduped). -/
theorem claim_C7_single_sorted_record_witness :
    (⟨"2025".data, "08".data, "28".data, "05, 07, 21, 23, 29".data⟩ : PMatch) ∈
      pilioMatches "2025/08/28 (四) 05, 07, 21, 23, 29" ∧
    (findall12 ("05, 07, 21, 23, 29".data)).length = 5 ∧
    (_extract_draws_from_html_pilio "2025/08/28 (四) 05, 07, 21, 23, 29").count
      ⟨"2025-08-28", [5, 7, 21, 23, 29]⟩ = 1 := by
  refine ⟨by decide, by decide, ?_⟩
  obtain ⟨r, hr, hcount, -, -, -, -⟩ :=
    (claim_C7_single_sorted_record "2025/08/28 (四) 05, 07, 21, 23, 29").1
      ⟨"2025".data, "08".data, "28".data, "05, 07, 21, 23, 29".data⟩ (by decide) (by decide)
  have hr2 : r = ⟨"2025-08-28", [5, 7, 21, 23, 29]⟩ := by
    have heval : mkDraw ⟨"2025".data, "08".data, "28".data, "05, 07, 21, 23, 29".data⟩ =
        some ⟨"2025-08-28", [5, 7, 21, 23, 29]⟩ := by decide
    rw [heval, Option.some.injEq] at hr
    exact hr.symm
  exact hr2 ▸ hcount

/-!
### Claim C8 — parser outputs are deduplicated
-/

/-- **C8**: for every input, neither parser returns two entries with the
same `(date, numbers)` pair, even when several pattern passes matched the
same fragment. -/
theorem claim_C8_parser_dedup :
    ∀ (html text : String),
      (_extract_draws_from_html_pilio html).Pairwise
        (fun a b => ¬ (a.date = b.date ∧ a.numbers = b.numbers)) ∧
      (_extract_draws_from_html_lotto8_text text).Pairwise
        (fun a b => ¬ (a.date = b.date ∧ a.numbers = b.numbers)) := by
  intro html text
  have himp : ∀ a b : Draw, a ≠ b → ¬ (a.date = b.date ∧ a.numbers = b.numbers) := by
    intro a b hne h
    apply hne
    cases a
    cases b
    simp only at h
    simp [h.1, h.2]
  constructor
  · exact (nodup_dedupDraws _).imp (himp _ _)
  · exact (nodup_dedupDraws _).imp (himp _ _)
